import Mathlib

/-!
Verification of the roster/directory mail-merging program (scs-mails.py).

Strings are modelled as `List Char`.  Python `str.replace(old, new)` with a
single-character `old` is per-character substitution; `str.strip(chars)`
removes leading and trailing characters from the given set; slicing
`s[a:b]` is `(s.drop a).take (b - a)` and `s[a:]` is `s.drop a`.
-/

/-- Python `s.strip(cs)`: drop the leading and trailing characters of `s`
that belong to `cs`. -/
def stripChars (cs : List Char) (s : List Char) : List Char :=
  ((s.dropWhile (fun c => cs.contains c)).reverse.dropWhile
    (fun c => cs.contains c)).reverse

/-- Python `s.replace(c, rep)` for a one-character pattern `c`: every
occurrence of `c` is replaced by the string `rep`. -/
def replaceChar (c : Char) (rep : List Char) : List Char → List Char
  | [] => []
  | x :: xs => (if x = c then rep else [x]) ++ replaceChar c rep xs

/-- The transliteration table of `normalizeName`, in source order. -/
def replTable : List (Char × List Char) :=
  [('ä', "ae".toList), ('ö', "oe".toList), ('ü', "ue".toList),
   ('Ä', "Ae".toList), ('Ö', "Oe".toList), ('Ü', "Ue".toList),
   ('ß', "ss".toList), ('é', "e".toList), ('è', "e".toList),
   ('ë', "e".toList), ('á', "a".toList), ('å', "a".toList),
   ('æ', "ae".toList), ('œ', "oe".toList), ('ø', "o".toList),
   ('ĳ', "ij".toList), ('ÿ', "y".toList), ('ý', "y".toList),
   ('ž', "z".toList), ('š', "s".toList), ('č', "c".toList),
   ('ç', "c".toList), ('ñ', "n".toList), ('ń', "n".toList),
   ('ł', "l".toList)]

/-- Apply the substitutions of a table in order (sequential `str.replace`
calls of the source). -/
def applyTable : List (Char × List Char) → List Char → List Char
  | [], s => s
  | (c, r) :: tbl, s => applyTable tbl (replaceChar c r s)

/-- `normalizeName` of scs-mails.py: strip a leading `Dr.`, strip
surrounding spaces, transliterate, and replace hyphens by spaces. -/
def normalizeName (nm : List Char) : List Char :=
  replaceChar '-' [' ']
    (applyTable replTable
      (stripChars [' '] (if nm.take 3 = "Dr.".toList then nm.drop 3 else nm)))

/-- `nameMatch` of scs-mails.py: exact equality, or equality after
normalization. -/
def nameMatch (nm1 nm2 : List Char) : Bool :=
  if nm1 = nm2 then true
  else if normalizeName nm1 = normalizeName nm2 then true
  else false

/-- A UCS/UDM user record (class `UdmUser`). -/
structure UdmUser where
  uid : List Char
  name : List Char
  gecos : List Char
  mls : List (List Char)
deriving DecidableEq, Repr

/-- `UdmUser.__init__`: `gecos` starts as `name` and `mls` empty;
`readUDM` always passes the default `name = ""`. -/
def UdmUser.init (uid : List Char) (name : List Char) : UdmUser :=
  ⟨uid, name, name, []⟩

/-- A github org member (class `MailUser`): handle, roster name, matched
UCS uid (initially empty) and mail list (initially empty). -/
structure MailUser where
  ghnm : List Char
  name : List Char
  ucsnm : List Char
  mls : List (List Char)
deriving DecidableEq, Repr

/-- `MailUser.__init__`. -/
def MailUser.init (ghnm : List Char) (name : List Char) : MailUser :=
  ⟨ghnm, name, [], []⟩

/-- The regex `uid=([^,]*),` applied with `re.match` (anchored at the
start): succeeds iff the text starts with `uid=` and a comma follows
somewhere; the captured group is everything before the first comma. -/
def uidMatch (s : List Char) : Option (List Char) :=
  if s.take 4 = "uid=".toList ∧ (s.drop 4).any (fun c => c = ',') then
    some ((s.drop 4).takeWhile (fun c => ¬ (c = ',')))
  else none

/-- The `DN: ` branch of `readUDM`: on a `DN: ` line, flush the current
record and start a new one when the uid pattern matches, otherwise leave
no record active.  Other lines leave the state unchanged here. -/
def dnStep (st : List UdmUser × Option UdmUser) (ln : List Char) :
    List UdmUser × Option UdmUser :=
  if ln.take 4 = "DN: ".toList then
    match uidMatch (ln.drop 4) with
    | some uid => (st.1 ++ st.2.toList, some (UdmUser.init uid []))
    | none => (st.1 ++ st.2.toList, none)
  else st

/-- The field-line branches of `readUDM`, acting on the active record:
fixed-offset prefix checks for `displayName:`, `mailForwardAddress:`,
`e-mail:` and `gecos:`, each value skipping one character after the
colon. -/
def fieldStep (usr : UdmUser) (ln : List Char) : UdmUser :=
  if (ln.drop 2).take 12 = "displayName:".toList then
    { usr with name := ln.drop 15 }
  else if (ln.drop 2).take 19 = "mailForwardAddress:".toList then
    { usr with mls := (ln.drop 22) :: usr.mls.erase (ln.drop 22) }
  else if (ln.drop 2).take 7 = "e-mail:".toList then
    if (ln.drop 10) ∈ usr.mls then usr
    else { usr with mls := usr.mls ++ [ln.drop 10] }
  else if (ln.drop 2).take 6 = "gecos:".toList then
    { usr with gecos := ln.drop 9 }
  else usr

/-- One loop iteration of `readUDM` on an already CR/LF-stripped line:
handle a possible `DN: ` record boundary, then, when a record is active,
the field lines. -/
def procStripped (st : List UdmUser × Option UdmUser) (ln : List Char) :
    List UdmUser × Option UdmUser :=
  match dnStep st ln with
  | (done, none) => (done, none)
  | (done, some usr) => (done, some (fieldStep usr ln))

/-- One loop iteration of `readUDM`: the source first strips the line of
CR/LF characters. -/
def procLine (st : List UdmUser × Option UdmUser) (ln0 : List Char) :
    List UdmUser × Option UdmUser :=
  procStripped st (stripChars ['\r', '\n'] ln0)

/-- Run `readUDM`'s loop from a given state. -/
def runUDM (st : List UdmUser × Option UdmUser) (lns : List (List Char)) :
    List UdmUser × Option UdmUser :=
  lns.foldl procLine st

/-- `readUDM` of scs-mails.py on a list of input lines.  In the source the
current record already sits in the result list and is mutated in place;
here it is kept separately and flushed at record boundaries and at the
end, which yields the same final list. -/
def readUDM (lns : List (List Char)) : List UdmUser :=
  (runUDM ([], none) lns).1 ++ (runUDM ([], none) lns).2.toList

/-- The match condition of `udmMail` for one record: `nameMatch` against
`name` or against `gecos`. -/
def udmMatches (nm : List Char) (udmuser : UdmUser) : Bool :=
  nameMatch nm udmuser.name || nameMatch nm udmuser.gecos

/-- One iteration of `udmMail`'s loop: on a match, set `ucsnm` to the
record's uid and append all of the record's mails (the source appends
each mail unconditionally). -/
def udmMailStep (user : MailUser) (udmuser : UdmUser) : MailUser :=
  if udmMatches user.name udmuser then
    { user with ucsnm := udmuser.uid, mls := user.mls ++ udmuser.mls }
  else user

/-- `udmMail` of scs-mails.py: fold the step over the parsed records. -/
def udmMail (user : MailUser) (udm : List UdmUser) : MailUser :=
  udm.foldl udmMailStep user

/-- The id, if any, that a raw input line contributes: the line must be
`DN: `-prefixed after CR/LF stripping and the anchored uid pattern must
match the remainder. -/
def dnUid (ln0 : List Char) : Option (List Char) :=
  if (stripChars ['\r', '\n'] ln0).take 4 = "DN: ".toList then
    uidMatch ((stripChars ['\r', '\n'] ln0).drop 4)
  else none

/-- The uids of all records held by a parser state, finished ones first. -/
def outUids (st : List UdmUser × Option UdmUser) : List (List Char) :=
  st.1.map UdmUser.uid ++ st.2.toList.map UdmUser.uid

/-! ### Helper lemmas -/

lemma cons_ne_of_head {α : Type} {a b : α} (h : a ≠ b) {l m : List α} :
    a :: l ≠ b :: m := by
  intro he
  injection he with h1 _
  exact h h1

lemma dropWhile_eq_self_of {α : Type} (p : α → Bool) (s : List α)
    (h : ∀ c ∈ s, p c = false) : s.dropWhile p = s := by
  cases s with
  | nil => rfl
  | cons a t => rw [List.dropWhile_cons]; simp [h a (by simp)]

lemma stripChars_eq_self (cs s : List Char)
    (h : ∀ c ∈ s, cs.contains c = false) : stripChars cs s = s := by
  unfold stripChars
  rw [dropWhile_eq_self_of _ _ h, dropWhile_eq_self_of, List.reverse_reverse]
  intro c hc
  exact h c (by simpa using hc)

lemma replaceChar_not_mem_self {c : Char} {rep : List Char} (h : c ∉ rep) :
    ∀ s, c ∉ replaceChar c rep s := by
  intro s
  induction s with
  | nil => simp [replaceChar]
  | cons x xs ih =>
    simp only [replaceChar, List.mem_append]
    rintro (hx | hx)
    · by_cases hxc : x = c
      · rw [if_pos hxc] at hx; exact h hx
      · rw [if_neg hxc] at hx; simp at hx; exact hxc hx.symm
    · exact ih hx

lemma replaceChar_not_mem {d c : Char} {rep : List Char} :
    ∀ {s : List Char}, d ∉ s → d ∉ rep → d ∉ replaceChar c rep s := by
  intro s
  induction s with
  | nil => intro _ _; simp [replaceChar]
  | cons x xs ih =>
    intro hs hr
    simp only [replaceChar, List.mem_append]
    rintro (hx | hx)
    · by_cases hxc : x = c
      · rw [if_pos hxc] at hx; exact hr hx
      · rw [if_neg hxc] at hx
        simp at hx
        exact hs (by simp [hx])
    · exact ih (fun hm => hs (List.mem_cons_of_mem _ hm)) hr hx

lemma replaceChar_eq_self {c : Char} {rep : List Char} :
    ∀ {s : List Char}, c ∉ s → replaceChar c rep s = s := by
  intro s
  induction s with
  | nil => intro _; rfl
  | cons x xs ih =>
    intro h
    have hxc : ¬ x = c := fun he => h (by simp [he])
    simp only [replaceChar, if_neg hxc, List.singleton_append]
    rw [ih (fun hm => h (List.mem_cons_of_mem _ hm))]

lemma applyTable_not_mem {c : Char} :
    ∀ (tbl : List (Char × List Char)) (s : List Char),
      (∀ p ∈ tbl, c ∉ p.2) → c ∉ s → c ∉ applyTable tbl s := by
  intro tbl
  induction tbl with
  | nil => intro s _ hs; exact hs
  | cons p rest ih =>
    intro s htbl hs
    exact ih _ (fun q hq => htbl q (List.mem_cons_of_mem _ hq))
      (replaceChar_not_mem hs (htbl p (by simp)))

lemma applyTable_kills {c : Char} :
    ∀ (tbl : List (Char × List Char)) (s : List Char),
      (∀ p ∈ tbl, c ∉ p.2) → (∃ r, (c, r) ∈ tbl) → c ∉ applyTable tbl s := by
  intro tbl
  induction tbl with
  | nil => rintro s _ ⟨r, hr⟩; simp at hr
  | cons p rest ih =>
    rintro s htbl ⟨r, hr⟩
    rcases List.mem_cons.mp hr with hp | hp
    · have hcr : c ∉ r := by
        have := htbl (c, r) (by rw [hp]; simp)
        exact this
      show c ∉ applyTable rest (replaceChar p.1 p.2 s)
      have hpc : p.1 = c := by rw [← hp]
      have hpr : p.2 = r := by rw [← hp]
      rw [hpc, hpr]
      exact applyTable_not_mem rest _
        (fun q hq => htbl q (List.mem_cons_of_mem _ hq))
        (replaceChar_not_mem_self hcr s)
    · exact ih _ (fun q hq => htbl q (List.mem_cons_of_mem _ hq)) ⟨r, hp⟩

lemma applyTable_eq_self :
    ∀ (tbl : List (Char × List Char)) (s : List Char),
      (∀ p ∈ tbl, p.1 ∉ s) → applyTable tbl s = s := by
  intro tbl
  induction tbl with
  | nil => intro s _; rfl
  | cons p rest ih =>
    intro s h
    show applyTable rest (replaceChar p.1 p.2 s) = s
    rw [replaceChar_eq_self (h p (by simp))]
    exact ih s (fun q hq => h q (List.mem_cons_of_mem _ hq))

lemma table_chars_disjoint :
    ∀ p ∈ replTable, (∀ q ∈ replTable, p.1 ∉ q.2) ∧ p.1 ∉ [' '] := by
  decide

/-- After `normalizeName`, none of the transliterated characters remains. -/
lemma normalizeName_no_table (x : List Char) :
    ∀ p ∈ replTable, p.1 ∉ normalizeName x := by
  intro p hp
  unfold normalizeName
  exact replaceChar_not_mem
    (applyTable_kills _ _ (fun q hq => (table_chars_disjoint p hp).1 q hq)
      ⟨p.2, by rcases p with ⟨a, b⟩; exact hp⟩)
    (table_chars_disjoint p hp).2

/-- After `normalizeName`, no hyphen remains. -/
lemma normalizeName_no_hyphen (x : List Char) : '-' ∉ normalizeName x := by
  unfold normalizeName
  exact replaceChar_not_mem_self (by decide) _

/-- `normalizeName` fixes any string free of its transformation triggers. -/
lemma normalizeName_fixed (y : List Char)
    (h1 : y.take 3 ≠ "Dr.".toList)
    (h2 : stripChars [' '] y = y)
    (h3 : ∀ p ∈ replTable, p.1 ∉ y)
    (h4 : '-' ∉ y) : normalizeName y = y := by
  unfold normalizeName
  rw [if_neg h1, h2, applyTable_eq_self _ _ h3, replaceChar_eq_self h4]

/-! ### Merge-engine lemmas -/

lemma udmMailStep_name (user : MailUser) (r : UdmUser) :
    (udmMailStep user r).name = user.name := by
  unfold udmMailStep
  split <;> rfl

lemma udmMailStep_mls (user : MailUser) (r : UdmUser) :
    (udmMailStep user r).mls =
      if udmMatches user.name r then user.mls ++ r.mls else user.mls := by
  unfold udmMailStep
  split <;> simp_all

/-! ### Claims about the name normalizer and the merge -/

/-- C4 counterexample: `normalizeName` applied to `"a-"` gives `"a "`
(the hyphen became a trailing space) and a second application strips that
space, so idempotence fails at the input `"a-"`. -/
theorem C4_counterexample :
    normalizeName (normalizeName "a-".toList) ≠ normalizeName "a-".toList := by
  decide

/-- C4 (amended): `normalizeName` is idempotent at every input whose
normal form neither begins with `Dr.` nor is changed by stripping
surrounding spaces. -/
theorem C4_amended_theorem (x : List Char)
    (h1 : (normalizeName x).take 3 ≠ "Dr.".toList)
    (h2 : stripChars [' '] (normalizeName x) = normalizeName x) :
    normalizeName (normalizeName x) = normalizeName x :=
  normalizeName_fixed (normalizeName x) h1 h2
    (normalizeName_no_table x) (normalizeName_no_hyphen x)

/-- Witness for C4 (amended) at the input `"Dr. Jörg-Müller"`. -/
theorem C4_witness :
    (normalizeName "Dr. Jörg-Müller".toList).take 3 ≠ "Dr.".toList ∧
    stripChars [' '] (normalizeName "Dr. Jörg-Müller".toList) =
      normalizeName "Dr. Jörg-Müller".toList ∧
    normalizeName (normalizeName "Dr. Jörg-Müller".toList) =
      normalizeName "Dr. Jörg-Müller".toList :=
  ⟨by decide, by decide, C4_amended_theorem _ (by decide) (by decide)⟩

/-- C2 counterexample: `normalizeName "Ä. Müller" = "Ae. Mueller"` with a
lowercase `e`, so against the fallback name `"AE. Mueller"` (capital `E`)
`nameMatch` returns `false`, and the merge attaches neither the record's
uid nor its mails. -/
theorem C2_counterexample :
    nameMatch "Ä. Müller".toList "AE. Mueller".toList = false ∧
    udmMail (MailUser.init "gh".toList "Ä. Müller".toList)
        [⟨"uid1".toList, "Unrelated".toList, "AE. Mueller".toList,
          ["m@x".toList]⟩] =
      MailUser.init "gh".toList "Ä. Müller".toList := by
  decide

/-- C2 (amended): with fallback name `"Ae. Mueller"` (the exact normal
form of `"Ä. Müller"`), `nameMatch` returns true via normalization and the
merge attaches the record's uid and mails. -/
theorem C2_amended_theorem :
    nameMatch "Ä. Müller".toList "Ae. Mueller".toList = true ∧
    udmMail (MailUser.init "gh".toList "Ä. Müller".toList)
        [⟨"uid1".toList, "Unrelated".toList, "Ae. Mueller".toList,
          ["m@x".toList]⟩] =
      ⟨"gh".toList, "Ä. Müller".toList, "uid1".toList, ["m@x".toList]⟩ := by
  decide

/-- C1 counterexample: two parsed records with the same display name and
the same mail; `udmMail` appends the mail twice, so the merged mail list
has a duplicate. -/
theorem C1_counterexample :
    (udmMail (MailUser.init "gh".toList "X".toList)
        (readUDM ["DN: uid=u1,x".toList, "  displayName: X".toList,
          "  e-mail: a@x".toList, "DN: uid=u2,x".toList,
          "  displayName: X".toList, "  e-mail: a@x".toList])).mls =
      ["a@x".toList, "a@x".toList] ∧
    ¬ (udmMail (MailUser.init "gh".toList "X".toList)
        (readUDM ["DN: uid=u1,x".toList, "  displayName: X".toList,
          "  e-mail: a@x".toList, "DN: uid=u2,x".toList,
          "  displayName: X".toList, "  e-mail: a@x".toList])).mls.Nodup := by
  constructor
  · decide
  · decide

/-- C1 (amended): for every roster entry and record sequence, the merge
appends every matching record's mails unconditionally (no membership
check), so the merged mail list is the roster entry's list followed by the
concatenation of all matching records' mail lists, duplicates included. -/
theorem C1_amended_theorem (user : MailUser) (udm : List UdmUser) :
    (udmMail user udm).mls =
      user.mls ++
        (udm.filter (fun r => udmMatches user.name r)).flatMap UdmUser.mls := by
  induction udm generalizing user with
  | nil => simp [udmMail]
  | cons r rest ih =>
    have hstep := ih (udmMailStep user r)
    simp only [udmMail, List.foldl_cons] at hstep ⊢
    rw [hstep, udmMailStep_name, udmMailStep_mls, List.filter_cons]
    by_cases h : udmMatches user.name r
    · simp [h, List.append_assoc]
    · simp [h]

/-- C10: a roster entry with empty name matches a record with empty
display name by exact equality, so its uid and mails are attached. -/
theorem C10_theorem (user : MailUser) (r : UdmUser)
    (hu : user.name = []) (hr : r.name = []) :
    udmMail user [r] =
      { user with ucsnm := r.uid, mls := user.mls ++ r.mls } := by
  have hm : udmMatches user.name r = true := by
    unfold udmMatches nameMatch
    rw [hu, hr]
    simp
  simp [udmMail, udmMailStep, hm]

/-- Witness for C10 at a concrete roster entry and record. -/
theorem C10_witness :
    (MailUser.mk "gh".toList [] [] ["p@q".toList]).name = [] ∧
    (UdmUser.mk "u9".toList [] [] ["a@b".toList]).name = [] ∧
    udmMail (MailUser.mk "gh".toList [] [] ["p@q".toList])
        [UdmUser.mk "u9".toList [] [] ["a@b".toList]] =
      { MailUser.mk "gh".toList [] [] ["p@q".toList] with
          ucsnm := (UdmUser.mk "u9".toList [] [] ["a@b".toList]).uid,
          mls := (MailUser.mk "gh".toList [] [] ["p@q".toList]).mls ++
            (UdmUser.mk "u9".toList [] [] ["a@b".toList]).mls } :=
  ⟨rfl, rfl, C10_theorem _ _ rfl rfl⟩

/-! ### Parser lemmas -/

lemma dnStep_shift (d : List UdmUser) (c : Option UdmUser) (ln : List Char) :
    dnStep (d, c) ln = (d ++ (dnStep ([], c) ln).1, (dnStep ([], c) ln).2) := by
  by_cases h : ln.take 4 = "DN: ".toList
  · cases hm : uidMatch (ln.drop 4) <;> simp [dnStep, hm, h]
  · have h2 : ¬ ln.take 4 = ['D', 'N', ':', ' '] := h
    simp [dnStep, h2]

lemma procStripped_shift (d : List UdmUser) (c : Option UdmUser)
    (ln : List Char) :
    procStripped (d, c) ln =
      (d ++ (procStripped ([], c) ln).1, (procStripped ([], c) ln).2) := by
  unfold procStripped
  rw [dnStep_shift]
  rcases hdn : dnStep ([], c) ln with ⟨e, c2⟩
  cases c2 <;> simp

lemma procLine_shift (d : List UdmUser) (c : Option UdmUser)
    (ln0 : List Char) :
    procLine (d, c) ln0 =
      (d ++ (procLine ([], c) ln0).1, (procLine ([], c) ln0).2) := by
  unfold procLine
  exact procStripped_shift d c _

lemma runUDM_shift :
    ∀ (lns : List (List Char)) (d : List UdmUser) (c : Option UdmUser),
      runUDM (d, c) lns =
        (d ++ (runUDM ([], c) lns).1, (runUDM ([], c) lns).2) := by
  intro lns
  induction lns with
  | nil => intro d c; simp [runUDM]
  | cons ln rest ih =>
    intro d c
    simp only [runUDM, List.foldl_cons]
    rcases hp : procLine ([], c) ln with ⟨P1, P2⟩
    rw [procLine_shift d c ln, hp]
    have h1 := ih (d ++ P1) P2
    have h2 := ih P1 P2
    simp only [runUDM] at h1 h2
    rw [h1, h2]
    simp [List.append_assoc]

lemma procLine_inactive (d : List UdmUser) (ln0 : List Char)
    (h : (stripChars ['\r', '\n'] ln0).take 4 ≠ "DN: ".toList) :
    procLine (d, none) ln0 = (d, none) := by
  unfold procLine procStripped dnStep
  rw [if_neg h]

lemma runUDM_inactive :
    ∀ (fs : List (List Char)) (d : List UdmUser),
      (∀ f ∈ fs, (stripChars ['\r', '\n'] f).take 4 ≠ "DN: ".toList) →
      runUDM (d, none) fs = (d, none) := by
  intro fs
  induction fs with
  | nil => intro d _; rfl
  | cons f rest ih =>
    intro d h
    simp only [runUDM, List.foldl_cons]
    rw [procLine_inactive d f (h f (by simp))]
    exact ih d (fun g hg => h g (List.mem_cons_of_mem _ hg))

lemma procLine_badDN (d : List UdmUser) (c : Option UdmUser) (ln0 : List Char)
    (h1 : (stripChars ['\r', '\n'] ln0).take 4 = "DN: ".toList)
    (h2 : uidMatch ((stripChars ['\r', '\n'] ln0).drop 4) = none) :
    procLine (d, c) ln0 = (d ++ c.toList, none) := by
  unfold procLine procStripped dnStep
  rw [if_pos h1, h2]

/-! ### Claims about the directory parser -/

/-- C7: a `DN: ` line without an extractable uid only deactivates the
record context — whatever record was open is flushed unchanged, the
following non-`DN: ` field lines are ignored, and parsing of the
remaining lines proceeds exactly as if started fresh. -/
theorem C7_theorem (pre : List (List Char)) (bad : List Char)
    (fs rest : List (List Char))
    (hbad1 : (stripChars ['\r', '\n'] bad).take 4 = "DN: ".toList)
    (hbad2 : uidMatch ((stripChars ['\r', '\n'] bad).drop 4) = none)
    (hfs : ∀ f ∈ fs, (stripChars ['\r', '\n'] f).take 4 ≠ "DN: ".toList) :
    readUDM (pre ++ bad :: (fs ++ rest)) = readUDM pre ++ readUDM rest := by
  unfold readUDM
  rcases hpre : runUDM ([], none) pre with ⟨d, c⟩
  have hrun : runUDM ([], none) (pre ++ bad :: (fs ++ rest)) =
      runUDM (d ++ c.toList, none) rest := by
    unfold runUDM at hpre ⊢
    rw [List.foldl_append, hpre, List.foldl_cons,
      procLine_badDN d c bad hbad1 hbad2, List.foldl_append]
    have hfsrun := runUDM_inactive fs (d ++ c.toList) hfs
    unfold runUDM at hfsrun
    rw [hfsrun]
  rw [hrun, runUDM_shift rest (d ++ c.toList) none]
  simp [List.append_assoc]

/-- Witness for C7: a malformed `DN: ` line between two well-formed
records; the ignored field line contributes nothing. -/
theorem C7_witness :
    (stripChars ['\r', '\n'] "DN: nouid".toList).take 4 = "DN: ".toList ∧
    uidMatch ((stripChars ['\r', '\n'] "DN: nouid".toList).drop 4) = none ∧
    (∀ f ∈ ["  e-mail: z@z".toList],
      (stripChars ['\r', '\n'] f).take 4 ≠ "DN: ".toList) ∧
    readUDM (["DN: uid=a,x".toList] ++ "DN: nouid".toList ::
        (["  e-mail: z@z".toList] ++ ["DN: uid=b,y".toList])) =
      readUDM ["DN: uid=a,x".toList] ++ readUDM ["DN: uid=b,y".toList] :=
  ⟨by decide, by decide, by decide,
    C7_theorem ["DN: uid=a,x".toList] "DN: nouid".toList
      ["  e-mail: z@z".toList] ["DN: uid=b,y".toList]
      (by decide) (by decide) (by decide)⟩

lemma fieldStep_uid (usr : UdmUser) (ln : List Char) :
    (fieldStep usr ln).uid = usr.uid := by
  unfold fieldStep
  split_ifs <;> rfl

lemma procLine_outUids (st : List UdmUser × Option UdmUser) (ln0 : List Char) :
    outUids (procLine st ln0) = outUids st ++ (dnUid ln0).toList := by
  rcases st with ⟨d, c⟩
  unfold procLine procStripped dnStep dnUid
  by_cases h : (stripChars ['\r', '\n'] ln0).take 4 = "DN: ".toList
  · rw [if_pos h, if_pos h]
    cases hm : uidMatch ((stripChars ['\r', '\n'] ln0).drop 4) with
    | none => simp [outUids]
    | some u => simp [outUids, fieldStep_uid, UdmUser.init]
  · rw [if_neg h, if_neg h]
    cases c with
    | none => simp [outUids]
    | some usr => simp [outUids, fieldStep_uid]

lemma runUDM_outUids :
    ∀ (lns : List (List Char)) (st : List UdmUser × Option UdmUser),
      outUids (runUDM st lns) = outUids st ++ lns.filterMap dnUid := by
  intro lns
  induction lns with
  | nil => intro st; simp [runUDM, outUids]
  | cons ln rest ih =>
    intro st
    simp only [runUDM, List.foldl_cons, List.filterMap_cons]
    have hstep := ih (procLine st ln)
    simp only [runUDM] at hstep
    rw [hstep, procLine_outUids]
    cases hdn : dnUid ln <;> simp [List.append_assoc]

/-- C5 counterexample: the line `DN: uid=,x` yields a record whose id is
the EMPTY string, so "every parsed record has a non-empty id" fails. -/
theorem C5_counterexample :
    readUDM ["DN: uid=,x".toList] = [UdmUser.init [] []] ∧
    (UdmUser.init [] []).uid = [] := by
  constructor
  · decide
  · decide

/-- C5 (amended): the ids of the parser's output are exactly the
(possibly empty) texts captured between `uid=` and the first comma of
the `DN: ` lines whose anchored pattern matches; lines from which no id
can be parsed produce no record and parsing continues. -/
theorem C5_amended_theorem (lns : List (List Char)) :
    (readUDM lns).map UdmUser.uid = lns.filterMap dnUid := by
  have h := runUDM_outUids lns ([], none)
  simp only [outUids] at h
  simp only [readUDM, List.map_append]
  simpa using h

/-- C3 counterexample: in `DN: cn=a,uid=bob,dc=c` the segment `uid=bob,`
is present but not at the start of the remainder after `DN: `; the
anchored pattern fails, so no record at all is produced — the claim
predicts a record with id `bob`. -/
theorem C3_counterexample :
    readUDM ["DN: cn=a,uid=bob,dc=c".toList] = [] := by
  decide

lemma takeWhile_append_of_all {α : Type} (p : α → Bool) (l : List α) (b : α)
    (r : List α) (hl : ∀ a ∈ l, p a = true) (hb : p b = false) :
    (l ++ b :: r).takeWhile p = l := by
  induction l with
  | nil => simp [List.takeWhile_cons, hb]
  | cons a t ih =>
    simp only [List.cons_append, List.takeWhile_cons, hl a (by simp),
      if_true]
    rw [ih (fun x hx => hl x (List.mem_cons_of_mem _ hx))]

/-- On text of the form `uid=<id>,<rest>` with a comma-free `<id>`, the
anchored uid pattern captures exactly `<id>`. -/
lemma uidMatch_anchored (id rest : List Char) (hid : ',' ∉ id) :
    uidMatch ('u' :: 'i' :: 'd' :: '=' :: (id ++ ',' :: rest)) = some id := by
  unfold uidMatch
  rw [if_pos]
  · congr 1
    show (id ++ ',' :: rest).takeWhile _ = id
    apply takeWhile_append_of_all
    · intro a ha
      simp only [decide_eq_true_eq]
      exact fun he => hid (he ▸ ha)
    · simp
  · constructor
    · rfl
    · show (id ++ ',' :: rest).any _ = true
      refine List.any_eq_true.mpr ⟨',', by simp, by simp⟩

/-- On a well-formed `DN: uid=<id>,<rest>` line, `dnStep` flushes the
current record and opens a fresh one with id `<id>`. -/
lemma dnStep_dn (d : List UdmUser) (c : Option UdmUser) (id rest : List Char)
    (hid : ',' ∉ id) :
    dnStep (d, c)
        ('D' :: 'N' :: ':' :: ' ' ::
          ('u' :: 'i' :: 'd' :: '=' :: (id ++ ',' :: rest))) =
      (d ++ c.toList, some (UdmUser.init id [])) := by
  have hc : ('D' :: 'N' :: ':' :: ' ' ::
      ('u' :: 'i' :: 'd' :: '=' :: (id ++ ',' :: rest))).take 4 =
      "DN: ".toList := rfl
  have hu : uidMatch (('D' :: 'N' :: ':' :: ' ' ::
      ('u' :: 'i' :: 'd' :: '=' :: (id ++ ',' :: rest))).drop 4) =
      some id := uidMatch_anchored id rest hid
  unfold dnStep
  rw [if_pos hc, hu]

/-- A `DN: `-prefixed line never passes any of the field-line prefix
checks (they all inspect columns 2 and onward, which start `: ` here). -/
lemma fieldStep_dn (usr : UdmUser) (tail : List Char) :
    fieldStep usr ('D' :: 'N' :: ':' :: ' ' :: tail) = usr := by
  have h1 : ¬ ((('D' :: 'N' :: ':' :: ' ' :: tail).drop 2).take 12 =
      "displayName:".toList) := by
    intro h
    have h' : ':' :: ' ' :: List.take 10 tail =
        'd' :: "isplayName:".toList := h
    injection h' with hh _
    exact absurd hh (by decide)
  have h2 : ¬ ((('D' :: 'N' :: ':' :: ' ' :: tail).drop 2).take 19 =
      "mailForwardAddress:".toList) := by
    intro h
    have h' : ':' :: ' ' :: List.take 17 tail =
        'm' :: "ailForwardAddress:".toList := h
    injection h' with hh _
    exact absurd hh (by decide)
  have h3 : ¬ ((('D' :: 'N' :: ':' :: ' ' :: tail).drop 2).take 7 =
      "e-mail:".toList) := by
    intro h
    have h' : ':' :: ' ' :: List.take 5 tail = 'e' :: "-mail:".toList := h
    injection h' with hh _
    exact absurd hh (by decide)
  have h4 : ¬ ((('D' :: 'N' :: ':' :: ' ' :: tail).drop 2).take 6 =
      "gecos:".toList) := by
    intro h
    have h' : ':' :: ' ' :: List.take 4 tail = 'g' :: "ecos:".toList := h
    injection h' with hh _
    exact absurd hh (by decide)
  unfold fieldStep
  rw [if_neg h1, if_neg h2, if_neg h3, if_neg h4]

/-- C3 (amended): only `DN: ` lines whose uid segment starts IMMEDIATELY
after the `DN: ` prefix start a record (the pattern is anchored); the id
is the text before the first comma, and a comma must follow it. -/
theorem C3_amended_theorem (id rest : List Char) (hid : ',' ∉ id)
    (hclean : stripChars ['\r', '\n']
        ("DN: uid=".toList ++ (id ++ ',' :: rest)) =
      "DN: uid=".toList ++ (id ++ ',' :: rest)) :
    readUDM ["DN: uid=".toList ++ (id ++ ',' :: rest)] =
      [UdmUser.init id []] := by
  have hln : "DN: uid=".toList ++ (id ++ ',' :: rest) =
      'D' :: 'N' :: ':' :: ' ' ::
        ('u' :: 'i' :: 'd' :: '=' :: (id ++ ',' :: rest)) := rfl
  unfold readUDM runUDM
  simp only [List.foldl_cons, List.foldl_nil]
  unfold procLine
  rw [hclean, hln]
  unfold procStripped
  rw [dnStep_dn ([] : List UdmUser) none id rest hid]
  simp only [List.nil_append, Option.toList]
  rw [fieldStep_dn]

/-- Witness for C3 (amended) at id `bob` and remainder `dc=x`. -/
theorem C3_witness :
    ',' ∉ "bob".toList ∧
    stripChars ['\r', '\n']
        ("DN: uid=".toList ++ ("bob".toList ++ ',' :: "dc=x".toList)) =
      "DN: uid=".toList ++ ("bob".toList ++ ',' :: "dc=x".toList) ∧
    readUDM ["DN: uid=".toList ++ ("bob".toList ++ ',' :: "dc=x".toList)] =
      [UdmUser.init "bob".toList []] :=
  ⟨by decide, by decide,
    C3_amended_theorem "bob".toList "dc=x".toList (by decide) (by decide)⟩

/-- C6: the three-field record `mailForwardAddress: a@x`, `e-mail: b@x`,
`mailForwardAddress: c@x` parses to the mail list `[c@x, a@x, b@x]`:
the second forwarding line displaces the first to position 0, ahead of
the appended plain mail. -/
theorem C6_theorem :
    readUDM ["DN: uid=u,x".toList,
        "  mailForwardAddress: a@x".toList,
        "  e-mail: b@x".toList,
        "  mailForwardAddress: c@x".toList] =
      [⟨"u".toList, [], [],
        ["c@x".toList, "a@x".toList, "b@x".toList]⟩] := by
  decide

/-! ### Duplicate-freedom of parsed mail lists -/

lemma fieldStep_nodup (usr : UdmUser) (ln : List Char)
    (h : usr.mls.Nodup) : (fieldStep usr ln).mls.Nodup := by
  unfold fieldStep
  split_ifs with hdisp hfw hem hmem hgec
  · exact h
  · exact List.nodup_cons.mpr ⟨h.not_mem_erase, h.erase _⟩
  · exact h
  · simp [List.nodup_append, h, hmem]
  · exact h
  · exact h

lemma procLine_nodup (st : List UdmUser × Option UdmUser) (ln0 : List Char)
    (h1 : ∀ u ∈ st.1, u.mls.Nodup) (h2 : ∀ u ∈ st.2.toList, u.mls.Nodup) :
    (∀ u ∈ (procLine st ln0).1, u.mls.Nodup) ∧
      (∀ u ∈ (procLine st ln0).2.toList, u.mls.Nodup) := by
  rcases st with ⟨d, c⟩
  unfold procLine procStripped dnStep
  by_cases hdn : (stripChars ['\r', '\n'] ln0).take 4 = "DN: ".toList
  · rw [if_pos hdn]
    cases hm : uidMatch ((stripChars ['\r', '\n'] ln0).drop 4) with
    | none =>
      refine ⟨?_, by simp⟩
      intro u hu
      rcases List.mem_append.mp hu with hu | hu
      · exact h1 u hu
      · exact h2 u hu
    | some w =>
      constructor
      · intro u hu
        rcases List.mem_append.mp hu with hu | hu
        · exact h1 u hu
        · exact h2 u hu
      · intro u hu
        simp only [Option.toList_some, List.mem_singleton] at hu
        rw [hu]
        exact fieldStep_nodup _ _ (by simp [UdmUser.init])
  · rw [if_neg hdn]
    cases c with
    | none => exact ⟨h1, by simp⟩
    | some usr =>
      refine ⟨h1, ?_⟩
      intro u hu
      simp only [Option.toList_some, List.mem_singleton] at hu
      rw [hu]
      exact fieldStep_nodup _ _ (h2 usr (by simp))

lemma runUDM_nodup :
    ∀ (lns : List (List Char)) (st : List UdmUser × Option UdmUser),
      (∀ u ∈ st.1, u.mls.Nodup) → (∀ u ∈ st.2.toList, u.mls.Nodup) →
      (∀ u ∈ (runUDM st lns).1, u.mls.Nodup) ∧
        (∀ u ∈ (runUDM st lns).2.toList, u.mls.Nodup) := by
  intro lns
  induction lns with
  | nil => intro st h1 h2; exact ⟨h1, h2⟩
  | cons ln rest ih =>
    intro st h1 h2
    have hp := procLine_nodup st ln h1 h2
    exact ih (procLine st ln) hp.1 hp.2

/-- C8: every record in the parser's output has a duplicate-free mail
list, whatever the input lines are. -/
theorem C8_theorem (lns : List (List Char)) (u : UdmUser)
    (hu : u ∈ readUDM lns) : u.mls.Nodup := by
  have h := runUDM_nodup lns ([], none) (by simp) (by simp)
  unfold readUDM at hu
  rcases List.mem_append.mp hu with h1 | h1
  · exact h.1 u h1
  · exact h.2 u h1

/-- Witness for C8 at a two-line input producing one record. -/
theorem C8_witness :
    UdmUser.mk "u".toList [] [] ["a@b".toList] ∈
      readUDM ["DN: uid=u,x".toList, "  e-mail: a@b".toList] ∧
    (UdmUser.mk "u".toList [] [] ["a@b".toList]).mls.Nodup :=
  ⟨by decide,
    C8_theorem ["DN: uid=u,x".toList, "  e-mail: a@b".toList]
      (UdmUser.mk "u".toList [] [] ["a@b".toList]) (by decide)⟩

/-- C9: an `e-mail:` field line is recognized by the prefix check ending
at the colon, and its value is read by unconditionally skipping exactly
one character after the colon — whatever that character is.  With no
space after the colon the first value character is lost. -/
theorem C9_theorem (done : List UdmUser) (usr : UdmUser) (tail : List Char)
    (hclean : stripChars ['\r', '\n'] ("  e-mail:".toList ++ tail) =
      "  e-mail:".toList ++ tail) :
    procLine (done, some usr) ("  e-mail:".toList ++ tail) =
      (done, some (if tail.drop 1 ∈ usr.mls then usr
        else { usr with mls := usr.mls ++ [tail.drop 1] })) := by
  have hln : "  e-mail:".toList ++ tail =
      ' ' :: ' ' :: 'e' :: '-' :: 'm' :: 'a' :: 'i' :: 'l' :: ':' :: tail :=
    rfl
  have hdn : ¬ ((' ' :: ' ' :: 'e' :: '-' :: 'm' :: 'a' :: 'i' :: 'l' ::
      ':' :: tail).take 4 = "DN: ".toList) := by
    intro h
    have h' : ' ' :: ' ' :: 'e' :: '-' :: ([] : List Char) =
        'D' :: "N: ".toList := h
    injection h' with hh _
    exact absurd hh (by decide)
  have h12 : ¬ (((' ' :: ' ' :: 'e' :: '-' :: 'm' :: 'a' :: 'i' :: 'l' ::
      ':' :: tail).drop 2).take 12 = "displayName:".toList) := by
    intro h
    have h' : 'e' :: '-' :: 'm' :: 'a' :: 'i' :: 'l' :: ':' ::
        List.take 5 tail = 'd' :: "isplayName:".toList := h
    injection h' with hh _
    exact absurd hh (by decide)
  have h19 : ¬ (((' ' :: ' ' :: 'e' :: '-' :: 'm' :: 'a' :: 'i' :: 'l' ::
      ':' :: tail).drop 2).take 19 = "mailForwardAddress:".toList) := by
    intro h
    have h' : 'e' :: '-' :: 'm' :: 'a' :: 'i' :: 'l' :: ':' ::
        List.take 12 tail = 'm' :: "ailForwardAddress:".toList := h
    injection h' with hh _
    exact absurd hh (by decide)
  have h7 : ((' ' :: ' ' :: 'e' :: '-' :: 'm' :: 'a' :: 'i' :: 'l' ::
      ':' :: tail).drop 2).take 7 = "e-mail:".toList := rfl
  unfold procLine
  rw [hclean, hln]
  unfold procStripped dnStep
  rw [if_neg hdn]
  dsimp only
  unfold fieldStep
  rw [if_neg h12, if_neg h19, if_pos h7]
  rfl

/-- Witness for C9 at the line `  e-mail:x@y`: the stored value is `@y`,
the first value character `x` is lost. -/
theorem C9_witness :
    stripChars ['\r', '\n'] ("  e-mail:".toList ++ "x@y".toList) =
      "  e-mail:".toList ++ "x@y".toList ∧
    procLine ([], some (UdmUser.mk "u".toList [] [] []))
        ("  e-mail:".toList ++ "x@y".toList) =
      ([], some (UdmUser.mk "u".toList [] [] ["@y".toList])) := by
  refine ⟨by decide, ?_⟩
  rw [C9_theorem [] (UdmUser.mk "u".toList [] [] []) "x@y".toList
    (by decide)]
  decide
